import Mathlib

/-!
# Verification of the MPS-Price-Bot catalog search core

A shallow embedding of `app.py`: the two-tier price lookup (`find_prices`
over `SQL_LOOKUP_FUZZY` / `SQL_LOOKUP_SUBSTRING`), the paginated listing
(`list_products` over `SQL_LIST_PRODUCTS` / `SQL_COUNT_PRODUCTS`), the
product-detail path (`send_product_detail`), and the command-argument
parser (`_parse_produk_args`, modelled here as `parse_produk_args`).

Modelling conventions:
* The PostgreSQL table `DataObat` is a `List Product`; SQL text columns are
  `String` (a NULL/absent text field is modelled as `""`).
* `ilike` is modelled by a faithful SQL LIKE matcher (`likeMatch`) over
  lowercased pattern and text, including `%`/`_` wildcards and the
  backslash escape, exactly as PostgreSQL interprets the patterns the code
  builds by `'%'||x||'%'` concatenation.
* `similarity(a, b)` (pg_trgm) is an uninterpreted parameter
  `sim : String → String → ℚ`.
* Query failures (unreachable store, missing extension, negative OFFSET)
  are modelled by failure flags on the store; a failing fetch is
  `Except.error ()`, matching a raised asyncpg exception.
* Python regex operations are modelled character-exactly for ASCII input:
  `\b` word boundaries, greedy `\s+`/`\d+` with backtracking, the lazy
  group `(.+?)`, the lookahead `(?=\s+page\s+\d+\b|$)` (with `$` matching
  at the end or before a final newline, and `.` not matching newline), and
  `re.sub` removing every non-overlapping leftmost match.
-/

/-! ## Character classes (ASCII model of Python `\w`, `\s`, `str.strip`) -/

/-- Python `\w` on ASCII: letters, digits, underscore. -/
def isWordChar (c : Char) : Bool := c.isAlphanum || c = '_'

/-- Python `\s` on ASCII: space, tab, newline, carriage return, vertical tab, form feed. -/
def isSpaceChar (c : Char) : Bool :=
  c = ' ' || c = '\t' || c = '\n' || c = '\r' || c.toNat = 11 || c.toNat = 12

/-- The double-quote character. -/
def dq : Char := Char.ofNat 34

/-- Numeric value of a digit string, as computed by Python `int`. -/
def natOfDigits (l : List Char) : Nat :=
  l.foldl (fun a c => 10 * a + (c.toNat - 48)) 0

/-- Python `str.strip()` on a character list. -/
def stripL (l : List Char) : List Char :=
  ((l.dropWhile isSpaceChar).reverse.dropWhile isSpaceChar).reverse

/-! ## SQL LIKE / ILIKE -/

/-- `suffAny f t` holds iff `f` holds of some suffix of `t` (including
`t` itself and the empty suffix). -/
def suffAny (f : List Char → Bool) : List Char → Bool
  | [] => f []
  | c :: cs => f (c :: cs) || suffAny f cs

/-- SQL `LIKE` pattern matching: `%` matches any sequence, `_` any single
character, backslash escapes the next pattern character; other characters
match themselves.  First argument is the pattern, second the text. -/
def likeMatch : List Char → List Char → Bool
  | [], t => t.isEmpty
  | '%' :: ps, t => suffAny (likeMatch ps) t
  | '_' :: ps, t =>
    match t with
    | _ :: cs => likeMatch ps cs
    | [] => false
  | '\\' :: p :: ps, t =>
    match t with
    | c :: cs => c = p && likeMatch ps cs
    | [] => false
  | ['\\'], _ => false
  | p :: ps, t =>
    match t with
    | c :: cs => p = c && likeMatch ps cs
    | [] => false

/-- SQL `lower(...)`: lowercase every character.  (Defined through the
character list so that it is computable by the kernel; `lowerStr_eq` shows
it agrees with `String.toLower`.) -/
def lowerStr (s : String) : String := String.mk (s.toList.map Char.toLower)

/-- PostgreSQL `text ILIKE pattern`: case-insensitive LIKE. -/
def pgILike (text pattern : String) : Bool :=
  likeMatch (lowerStr pattern).toList (lowerStr text).toList

/-- `needle` occurs in `hay` as a contiguous sublist. -/
def containsSub (hay needle : List Char) : Bool :=
  hay.tails.any (fun t => needle.isPrefixOf t)

/-- Case-insensitive substring containment on strings. -/
def containsSubCI (hay needle : String) : Bool :=
  containsSub (lowerStr hay).toList (lowerStr needle).toList

/-- Characters with no special meaning inside a LIKE pattern. -/
def noWild (q : List Char) : Bool :=
  q.all (fun c => c ≠ '%' && c ≠ '_' && c ≠ '\\')

/-! ## A computable text order for the ORDER BY clauses -/

/-- Code-point lexicographic "less than" on character lists. -/
def lexLtCh : List Char → List Char → Bool
  | [], [] => false
  | [], _ :: _ => true
  | _ :: _, [] => false
  | c :: cs, d :: ds =>
    decide (c.toNat < d.toNat) || (decide (c.toNat = d.toNat) && lexLtCh cs ds)

/-- Code-point "less than" on strings: the model of the text collation
used by `ORDER BY` (the collation is environment-dependent; any total
order on text is a faithful model). -/
def strLt (a b : String) : Bool := lexLtCh a.toList b.toList

/-- Code-point "less than or equal" on strings. -/
def strLe (a b : String) : Bool := strLt a b || a == b

theorem lexLtCh_trans : ∀ x y z : List Char, lexLtCh x y = true →
    lexLtCh y z = true → lexLtCh x z = true := by
  intro x
  induction x with
  | nil =>
    intro y z hxy hyz
    cases y with
    | nil => simp [lexLtCh] at hxy
    | cons d ds =>
      cases z with
      | nil => simp [lexLtCh] at hyz
      | cons e es => simp [lexLtCh]
  | cons c cs ih =>
    intro y z hxy hyz
    cases y with
    | nil => simp [lexLtCh] at hxy
    | cons d ds =>
      cases z with
      | nil => simp [lexLtCh] at hyz
      | cons e es =>
        simp only [lexLtCh, Bool.or_eq_true, Bool.and_eq_true, decide_eq_true_eq] at *
        rcases hxy with h1 | ⟨h1, h2⟩ <;> rcases hyz with h3 | ⟨h3, h4⟩
        · exact Or.inl (by omega)
        · exact Or.inl (by omega)
        · exact Or.inl (by omega)
        · exact Or.inr ⟨by omega, ih ds es h2 h4⟩

theorem lexLtCh_connex : ∀ x y : List Char, lexLtCh x y = false →
    lexLtCh y x = false → x = y := by
  intro x
  induction x with
  | nil =>
    intro y hxy _
    cases y with
    | nil => rfl
    | cons d ds => simp [lexLtCh] at hxy
  | cons c cs ih =>
    intro y hxy hyx
    cases y with
    | nil => simp [lexLtCh] at hyx
    | cons d ds =>
      rcases Nat.lt_trichotomy c.toNat d.toNat with h | h | h
      · exact absurd hxy (by simp [lexLtCh, h])
      · have hc : c = d := Char.eq_of_val_eq (UInt32.toNat.inj h)
        subst hc
        have h1 : lexLtCh cs ds = false := by
          cases hcd : lexLtCh cs ds
          · rfl
          · exact absurd hxy (by simp [lexLtCh, hcd])
        have h2 : lexLtCh ds cs = false := by
          cases hdc : lexLtCh ds cs
          · rfl
          · exact absurd hyx (by simp [lexLtCh, hdc])
        rw [ih ds h1 h2]
      · exact absurd hyx (by simp [lexLtCh, h])

theorem strLt_connex (a b : String) (h1 : strLt a b = false)
    (h2 : strLt b a = false) : a = b := by
  have h := lexLtCh_connex _ _ h1 h2
  cases a; cases b; simp_all [String.toList]

theorem strLe_trans {a b c : String} (h1 : strLe a b = true)
    (h2 : strLe b c = true) : strLe a c = true := by
  simp only [strLe, Bool.or_eq_true, beq_iff_eq] at *
  rcases h1 with h1 | h1 <;> rcases h2 with h2 | h2
  · exact Or.inl (lexLtCh_trans _ _ _ h1 h2)
  · exact Or.inl (h2 ▸ h1)
  · exact Or.inl (h1 ▸ h2)
  · exact Or.inr (h1.trans h2)

theorem strLe_total (a b : String) : strLe a b || strLe b a := by
  simp only [strLe, Bool.or_eq_true, beq_iff_eq]
  cases hab : strLt a b
  · cases hba : strLt b a
    · exact Or.inl (Or.inr (strLt_connex a b hab hba))
    · exact Or.inr (Or.inl rfl)
  · exact Or.inl (Or.inl rfl)

/-! ## Regex model for the three patterns of `_parse_produk_args` -/

/-- `\b` holds before a word character iff the previous character (if any)
is not a word character. -/
def bdOk : Option Char → Bool
  | none => true
  | some p => !(isWordChar p)

/-- `\b` holds after a word character iff the next characters start with a
non-word character or the string ends. -/
def bdAfterWord : List Char → Bool
  | [] => true
  | c :: _ => !(isWordChar c)

/-- Case-insensitive literal match (pattern given lowercased); returns the
rest of the text after the literal. -/
def matchCI : List Char → List Char → Option (List Char)
  | [], l => some l
  | _ :: _, [] => none
  | k :: ks, c :: cs => if c.toLower = k then matchCI ks cs else none

/-- Try `page\s+(\d+)\b` at the head of `l` (the `\b` before `page` is the
caller's duty).  Greedy `\s+`/`\d+` need no backtracking here: a shorter
whitespace run leaves a whitespace character where `p` is required, and a
shorter digit run leaves a digit on the right of the trailing `\b`.
Returns (digit group, rest after the match). -/
def tryPageAt (l : List Char) : Option (List Char × List Char) :=
  match matchCI "page".toList l with
  | none => none
  | some r =>
    let w := (r.takeWhile isSpaceChar).length
    if w = 0 then none else
    let r2 := r.drop w
    let ds := r2.takeWhile Char.isDigit
    if ds.isEmpty then none else
    let rest := r2.drop ds.length
    if bdAfterWord rest then some (ds, rest) else none

theorem matchCI_length : ∀ ks l r, matchCI ks l = some r → r.length + ks.length = l.length := by
  intro ks
  induction ks with
  | nil => intro l r h; simp [matchCI] at h; simp [h]
  | cons k ks ih =>
    intro l r h
    cases l with
    | nil => simp [matchCI] at h
    | cons c cs =>
      simp only [matchCI] at h
      split at h
      · have := ih cs r h
        simp [List.length_cons]; omega
      · exact absurd h (by simp)

theorem tryPageAt_length {l ds rest} (h : tryPageAt l = some (ds, rest)) :
    rest.length < l.length ∧ ds ≠ [] := by
  unfold tryPageAt at h
  split at h
  · exact absurd h (by simp)
  · rename_i r hm
    have hr := matchCI_length _ _ _ hm
    simp only at h
    split at h
    · exact absurd h (by simp)
    · rename_i hw
      split at h
      · exact absurd h (by simp)
      · rename_i hds
        split at h
        · simp only [Option.some.injEq, Prod.mk.injEq] at h
          obtain ⟨hds', hrest⟩ := h
          subst hds' hrest
          constructor
          · have h1 : (r.drop (r.takeWhile isSpaceChar).length).length =
                r.length - (r.takeWhile isSpaceChar).length := List.length_drop _ _
            have h2 : ((r.drop (r.takeWhile isSpaceChar).length).drop
                ((r.drop (r.takeWhile isSpaceChar).length).takeWhile Char.isDigit).length).length =
                (r.drop (r.takeWhile isSpaceChar).length).length -
                ((r.drop (r.takeWhile isSpaceChar).length).takeWhile Char.isDigit).length :=
              List.length_drop _ _
            have h3 : ((r.drop (r.takeWhile isSpaceChar).length).takeWhile Char.isDigit).length ≠ 0 := by
              intro hz
              exact hds (by simpa [List.isEmpty_iff, List.length_eq_zero] using hz)
            simp [String.toList] at hr
            omega
          · intro hnil
            exact hds (by simp [hnil])
        · exact absurd h (by simp)

/-- Leftmost search for `\bpage\s+(\d+)\b` (the page-number extraction of
`_extract_arg(r'\bpage\s+(\d+)\b', ...)`); `prev` is the character before
the current position. -/
def scanPage : Option Char → List Char → Option (List Char)
  | _, [] => none
  | prev, c :: cs =>
    if bdOk prev then
      match tryPageAt (c :: cs) with
      | some (ds, _) => some ds
      | none => scanPage (some c) cs
    else scanPage (some c) cs

/-- Fuelled worker for the page-token removal; one unit of fuel is spent
per step, and every step shortens the text, so `l.length` fuel always
suffices. -/
def subPageF : Nat → Option Char → List Char → List Char
  | _, _, [] => []
  | 0, _, l => l
  | fuel + 1, prev, c :: cs =>
    if bdOk prev then
      match tryPageAt (c :: cs) with
      | some (ds, rest) => subPageF fuel (some (ds.getLastD ' ')) rest
      | none => c :: subPageF fuel (some c) cs
    else c :: subPageF fuel (some c) cs

/-- `re.sub(r'\bpage\s+\d+\b', '', ·)`: remove every non-overlapping
leftmost match, continuing after each match. -/
def subPage (prev : Option Char) (l : List Char) : List Char :=
  subPageF l.length prev l

/-- Try `kategori\s+"([^"]+)"` at the head of `l`; returns (quoted body,
rest after the closing quote).  No backtracking is needed: a shorter
whitespace run leaves whitespace where `"` is required, and `[^"]+` can
only stop right before the next quote. -/
def tryQuotedAt (l : List Char) : Option (List Char × List Char) :=
  match matchCI "kategori".toList l with
  | none => none
  | some r =>
    let w := (r.takeWhile isSpaceChar).length
    if w = 0 then none else
    match r.drop w with
    | [] => none
    | c :: r2 =>
      if c = dq then
        let body := r2.takeWhile (fun x => x ≠ dq)
        if body.isEmpty then none else
        match r2.drop body.length with
        | c2 :: rest => if c2 = dq then some (body, rest) else none
        | [] => none
      else none

theorem tryQuotedAt_length {l body rest} (h : tryQuotedAt l = some (body, rest)) :
    rest.length < l.length := by
  unfold tryQuotedAt at h
  split at h
  · exact absurd h (by simp)
  · rename_i r hm
    have hr := matchCI_length _ _ _ hm
    simp only [String.toList] at hr
    simp only at h
    split at h
    · exact absurd h (by simp)
    · split at h
      · exact absurd h (by simp)
      · rename_i c r2 hdrop
        have hd1 : r2.length < r.length := by
          have := congrArg List.length hdrop
          rw [List.length_drop] at this
          simp only [List.length_cons] at this
          omega
        split at h
        · split at h
          · exact absurd h (by simp)
          · split at h
            · rename_i c2 rest2 hdrop2
              split at h
              · simp only [Option.some.injEq, Prod.mk.injEq] at h
                obtain ⟨hb, hrest⟩ := h
                subst hrest
                have := congrArg List.length hdrop2
                rw [List.length_drop] at this
                simp only [List.length_cons] at this
                simp at hr
                omega
              · exact absurd h (by simp)
            · exact absurd h (by simp)
        · exact absurd h (by simp)

/-- Leftmost search for `\bkategori\s+"([^"]+)"` (the quoted-category
extraction). -/
def scanQuoted : Option Char → List Char → Option (List Char)
  | _, [] => none
  | prev, c :: cs =>
    if bdOk prev then
      match tryQuotedAt (c :: cs) with
      | some (body, _) => some body
      | none => scanQuoted (some c) cs
    else scanQuoted (some c) cs

/-- One match attempt of the removal pattern `\bkategori\s+"[^"]+"\b`:
the trailing `\b` sits after the closing quote (a non-word character), so
it requires a word character to follow. -/
def tryQuotedSub (l : List Char) : Option (List Char) :=
  match tryQuotedAt l with
  | some (_, rest) =>
    match rest with
    | c :: _ => if isWordChar c then some rest else none
    | [] => none
  | none => none

theorem tryQuotedSub_length {l rest} (h : tryQuotedSub l = some rest) :
    rest.length < l.length := by
  unfold tryQuotedSub at h
  split at h
  · rename_i body rest' hq
    split at h
    · split at h
      · simp only [Option.some.injEq] at h
        subst h
        exact tryQuotedAt_length hq
      · exact absurd h (by simp)
    · exact absurd h (by simp)
  · exact absurd h (by simp)

/-- Fuelled worker for the quoted-category removal. -/
def subQuotedF : Nat → Option Char → List Char → List Char
  | _, _, [] => []
  | 0, _, l => l
  | fuel + 1, prev, c :: cs =>
    if bdOk prev then
      match tryQuotedSub (c :: cs) with
      | some rest => subQuotedF fuel (some dq) rest
      | none => c :: subQuotedF fuel (some c) cs
    else c :: subQuotedF fuel (some c) cs

/-- `re.sub(r'\bkategori\s+"[^"]+"\b', '', ·)`. -/
def subQuoted (prev : Option Char) (l : List Char) : List Char :=
  subQuotedF l.length prev l

/-- The `$` anchor of the lookahead: end of string, or just before a final
newline (Python `$` without `re.M`). -/
def dollarAt : List Char → Bool
  | [] => true
  | [c] => c = '\n'
  | _ => false

/-- The first lookahead alternative `\s+page\s+\d+\b`: at least one
whitespace character, then a page token. -/
def lookaheadPage (l : List Char) : Bool :=
  let w := (l.takeWhile isSpaceChar).length
  if w = 0 then false else (tryPageAt (l.drop w)).isSome

/-- The lookahead `(?=\s+page\s+\d+\b|$)`. -/
def lookaheadOk (l : List Char) : Bool := lookaheadPage l || dollarAt l

/-- The lazy group `(.+?)` followed by the lookahead: starting from the
shortest non-empty prefix, grow one character at a time (never across a
newline, since `.` does not match `\n`) until the lookahead holds.
`acc` holds the group read so far, reversed.  Returns (group, rest). -/
def lazyDot (acc : List Char) : List Char → Option (List Char × List Char)
  | [] => if !acc.isEmpty && lookaheadOk [] then some (acc.reverse, []) else none
  | c :: cs =>
    if !acc.isEmpty && lookaheadOk (c :: cs) then some (acc.reverse, c :: cs)
    else if c = '\n' then none
    else lazyDot (c :: acc) cs

theorem lazyDot_length : ∀ rest acc g r', lazyDot acc rest = some (g, r') →
    g.length + r'.length = acc.length + rest.length ∧ 1 ≤ g.length := by
  intro rest
  induction rest with
  | nil =>
    intro acc g r' h
    simp only [lazyDot] at h
    split at h
    · rename_i hc
      simp only [Option.some.injEq, Prod.mk.injEq] at h
      obtain ⟨hg, hr⟩ := h
      subst hg hr
      have hne : acc ≠ [] := by
        intro hnil; subst hnil; simp at hc
      have := List.length_pos.mpr hne
      simp
      omega
    · exact absurd h (by simp)
  | cons c cs ih =>
    intro acc g r' h
    simp only [lazyDot] at h
    split at h
    · rename_i hc
      simp only [Option.some.injEq, Prod.mk.injEq] at h
      obtain ⟨hg, hr⟩ := h
      subst hg hr
      have hne : acc ≠ [] := by
        intro hnil; subst hnil; simp at hc
      have := List.length_pos.mpr hne
      simp
      omega
    · split at h
      · exact absurd h (by simp)
      · have := ih (c :: acc) g r' h
        simp [List.length_cons] at this ⊢
        omega

/-- Backtracking over the greedy `\s+` in
`kategori\s+(.+?)(?=\s+page\s+\d+\b|$)`: try the maximal whitespace run
first, then give back one character at a time (down to a single
whitespace character). `r` is the text after `kategori`. -/
def tryUnquotGroup (r : List Char) : Nat → Option (List Char × List Char)
  | 0 => none
  | k + 1 =>
    match lazyDot [] (r.drop (k + 1)) with
    | some gr => some gr
    | none => tryUnquotGroup r k

theorem tryUnquotGroup_length : ∀ k {r g rest}, tryUnquotGroup r k = some (g, rest) →
    g.length + rest.length ≤ r.length ∧ 1 ≤ g.length := by
  intro k
  induction k with
  | zero => intro r g rest h; simp [tryUnquotGroup] at h
  | succ k ih =>
    intro r g rest h
    simp only [tryUnquotGroup] at h
    split at h
    · rename_i gr hlz
      cases gr with
      | mk g0 r0 =>
        simp only [Option.some.injEq, Prod.mk.injEq] at h
        obtain ⟨hg, hr0⟩ := h
        subst hg hr0
        have := lazyDot_length _ _ _ _ hlz
        have hd : (r.drop (k + 1)).length = r.length - (k + 1) := List.length_drop _ _
        simp only [List.length_nil, Nat.zero_add] at this
        omega
    · have := ih h
      omega

/-- Try `kategori\s+(.+?)(?=\s+page\s+\d+\b|$)` at the head of `l`;
returns (group, rest at the lookahead position). -/
def tryUnquotedAt (l : List Char) : Option (List Char × List Char) :=
  match matchCI "kategori".toList l with
  | none => none
  | some r =>
    let w := (r.takeWhile isSpaceChar).length
    if w = 0 then none else tryUnquotGroup r w

theorem tryUnquotedAt_length {l g rest} (h : tryUnquotedAt l = some (g, rest)) :
    rest.length < l.length ∧ 1 ≤ g.length := by
  unfold tryUnquotedAt at h
  split at h
  · exact absurd h (by simp)
  · rename_i r hm
    have hr := matchCI_length _ _ _ hm
    simp only at h
    split at h
    · exact absurd h (by simp)
    · have := tryUnquotGroup_length _ h
      simp [String.toList] at hr
      omega

/-- Leftmost search for `\bkategori\s+(.+?)(?=\s+page\s+\d+\b|$)` (the
unquoted-category extraction). -/
def scanUnquoted : Option Char → List Char → Option (List Char)
  | _, [] => none
  | prev, c :: cs =>
    if bdOk prev then
      match tryUnquotedAt (c :: cs) with
      | some (g, _) => some g
      | none => scanUnquoted (some c) cs
    else scanUnquoted (some c) cs

/-- Fuelled worker for the unquoted-category removal. -/
def subUnquotedF : Nat → Option Char → List Char → List Char
  | _, _, [] => []
  | 0, _, l => l
  | fuel + 1, prev, c :: cs =>
    if bdOk prev then
      match tryUnquotedAt (c :: cs) with
      | some (g, rest) => subUnquotedF fuel (some (g.getLastD ' ')) rest
      | none => c :: subUnquotedF fuel (some c) cs
    else c :: subUnquotedF fuel (some c) cs

/-- `re.sub(r'\bkategori\s+(.+?)(?=\s+page\s+\d+\b|$)', '', ·)`. -/
def subUnquoted (prev : Option Char) (l : List Char) : List Char :=
  subUnquotedF l.length prev l

/-! ## The command-argument parser `_parse_produk_args` -/

/-- Result of `_parse_produk_args`: free-text query, category, page. -/
structure ParseResult where
  q : String
  kat : String
  page : Nat
deriving DecidableEq, Repr

/-- `_parse_produk_args` from `app.py` (lines 331–359): quoted category
first (group stripped; an all-whitespace group counts as absent), else
unquoted category up to a page token or the end; page from
`\bpage\s+(\d+)\b` clamped to a minimum of 1, defaulting to 1; the
free-text query is the input with all recognised parts removed, stripped. -/
def parse_produk_args (args : String) : ParseResult :=
  if args = "" then ⟨"", "", 1⟩ else
  let l := args.toList
  let katQ := match scanQuoted none l with
    | some g => stripL g
    | none => []
  let kat := if katQ.isEmpty then
      match scanUnquoted none l with
      | some g => stripL g
      | none => []
    else katQ
  let page := match scanPage none l with
    | some ds => max 1 (natOfDigits ds)
    | none => 1
  let q := stripL (subPage none (subUnquoted none (subQuoted none l)))
  ⟨String.mk q, String.mk kat, page⟩

/-! ## A computable sort for the SQL ORDER BY clauses -/

/-- Insert `a` into `l` before the first element `b` with `le a b`. -/
def insortBy (le : α → α → Bool) (a : α) : List α → List α
  | [] => [a]
  | b :: l => if le a b then a :: b :: l else b :: insortBy le a l

/-- Insertion sort by a boolean total preorder (the model of SQL
`ORDER BY`: some ordering of the rows that is sorted for `le`; SQL leaves
the order of ties unspecified, and any sorted permutation is a faithful
model). -/
def sortBy (le : α → α → Bool) : List α → List α
  | [] => []
  | a :: l => insortBy le a (sortBy le l)

theorem insortBy_perm (le : α → α → Bool) (a : α) :
    ∀ l : List α, List.Perm (insortBy le a l) (a :: l) := by
  intro l
  induction l with
  | nil => exact List.Perm.refl _
  | cons b l ih =>
    unfold insortBy
    split
    · exact List.Perm.refl _
    · exact (List.Perm.cons b ih).trans (List.Perm.swap a b l)

theorem sortBy_perm (le : α → α → Bool) : ∀ l : List α, List.Perm (sortBy le l) l := by
  intro l
  induction l with
  | nil => exact List.Perm.refl _
  | cons a l ih =>
    exact (insortBy_perm le a (sortBy le l)).trans (List.Perm.cons a ih)

theorem length_sortBy (le : α → α → Bool) (l : List α) :
    (sortBy le l).length = l.length :=
  (sortBy_perm le l).length_eq

theorem mem_sortBy {le : α → α → Bool} {l : List α} {a : α} :
    a ∈ sortBy le l ↔ a ∈ l :=
  (sortBy_perm le l).mem_iff

theorem mem_insortBy {le : α → α → Bool} {l : List α} {a x : α} :
    x ∈ insortBy le a l ↔ x = a ∨ x ∈ l := by
  rw [(insortBy_perm le a l).mem_iff]
  simp

theorem sorted_insortBy (le : α → α → Bool)
    (htrans : ∀ a b c, le a b = true → le b c = true → le a c = true)
    (htotal : ∀ a b, le a b || le b a) (a : α) :
    ∀ l : List α, l.Pairwise (fun x y => le x y = true) →
      (insortBy le a l).Pairwise (fun x y => le x y = true) := by
  intro l
  induction l with
  | nil => intro _; simp [insortBy]
  | cons b l ih =>
    intro hp
    rw [List.pairwise_cons] at hp
    obtain ⟨hb, hl⟩ := hp
    unfold insortBy
    split
    · rename_i hab
      rw [List.pairwise_cons]
      refine ⟨?_, List.pairwise_cons.mpr ⟨hb, hl⟩⟩
      intro x hx
      rcases List.mem_cons.mp hx with hx | hx
      · exact hx ▸ hab
      · exact htrans a b x hab (hb x hx)
    · rename_i hab
      rw [List.pairwise_cons]
      constructor
      · intro x hx
        rcases mem_insortBy.mp hx with hx | hx
        · subst hx
          have := htotal x b
          simp [hab] at this
          exact this
        · exact hb x hx
      · exact ih hl

theorem sorted_sortBy (le : α → α → Bool)
    (htrans : ∀ a b c, le a b = true → le b c = true → le a c = true)
    (htotal : ∀ a b, le a b || le b a) :
    ∀ l : List α, (sortBy le l).Pairwise (fun x y => le x y = true) := by
  intro l
  induction l with
  | nil => simp [sortBy]
  | cons a l ih => exact sorted_insortBy le htrans htotal a (sortBy le l) ih

/-! ## Data model: the `DataObat` table -/

/-- A row of the `DataObat` table.  Text columns are strings (NULL/absent
is modelled as `""`); `price` is an integer amount. -/
structure Product where
  id : Nat
  sku : String
  nama : String
  kemasan : String
  price : Int
  kategori : String
  subKategori : String
deriving DecidableEq, Repr

/-- A row returned by the price-lookup queries: `SQL_LOOKUP_FUZZY` carries
a `similarity` score column, `SQL_LOOKUP_SUBSTRING` does not. -/
structure PriceRow where
  name : String
  pack : String
  price : Int
  score : Option ℚ
deriving DecidableEq, Repr

/-- Python `str.strip()`. -/
def pyStrip (s : String) : String := String.mk (stripL s.toList)

/-! ## The SQL queries -/

/-- WHERE clause of `SQL_LIST_PRODUCTS` / `SQL_COUNT_PRODUCTS`:
`($1 = '' or lower("nama") ilike '%'||lower($1)||'%') and
 ($2 = '' or lower("Kategori") = lower($2))`. -/
def listFilter (q category : String) (p : Product) : Bool :=
  (q = "" || pgILike (lowerStr p.nama) ("%" ++ lowerStr q ++ "%")) &&
  (category = "" || lowerStr p.kategori = lowerStr category)

/-- `order by lower("nama"), "kemasan"` as a boolean total preorder. -/
def listLE (a b : Product) : Bool :=
  strLt (lowerStr a.nama) (lowerStr b.nama) ||
  (lowerStr a.nama == lowerStr b.nama && strLe a.kemasan b.kemasan)

/-- `SQL_LIST_PRODUCTS` (app.py lines 136–148): filter, sort by
lowercased name then pack, then `limit $3 offset $4`. -/
def sql_list_products (db : List Product) (q category : String) (lim off : Nat) :
    List Product :=
  ((sortBy listLE (db.filter (listFilter q category))).drop off).take lim

/-- `SQL_COUNT_PRODUCTS` (lines 150–155). -/
def sql_count_products (db : List Product) (q category : String) : Nat :=
  (db.filter (listFilter q category)).length

/-- `SQL_PRODUCT_DETAIL` (lines 157–172): `where id = $1`. -/
def sql_product_detail (db : List Product) (pid : Nat) : List Product :=
  db.filter (fun p => p.id = pid)

/-- WHERE clause of `SQL_LOOKUP_FUZZY`:
`similarity("nama", $1) >= $3 and ($2 = '' or "kemasan" ilike '%'||$2||'%')`. -/
def fuzzyFilter (sim : String → String → ℚ) (qname qpack : String) (threshold : ℚ)
    (p : Product) : Bool :=
  decide (threshold ≤ sim p.nama qname) &&
  (qpack = "" || pgILike p.kemasan ("%" ++ qpack ++ "%"))

/-- `order by similarity("nama", $1) desc, "nama"`. -/
def fuzzyLE (sim : String → String → ℚ) (qname : String) (a b : Product) : Bool :=
  decide (sim b.nama qname < sim a.nama qname) ||
  (sim a.nama qname = sim b.nama qname && strLe a.nama b.nama)

/-- `SQL_LOOKUP_FUZZY` (lines 174–185): filter by similarity threshold and
optional pack substring, order by score descending then name, `limit 5`;
each row carries its similarity score. -/
def sql_lookup_fuzzy (db : List Product) (sim : String → String → ℚ)
    (qname qpack : String) (threshold : ℚ) : List PriceRow :=
  ((sortBy (fuzzyLE sim qname) (db.filter (fuzzyFilter sim qname qpack threshold))).take 5).map
    (fun p => ⟨p.nama, p.kemasan, p.price, some (sim p.nama qname)⟩)

/-- WHERE clause of `SQL_LOOKUP_SUBSTRING`:
`("nama" ilike '%'||$1||'%' or "SKU" ilike '%'||$1||'%') and
 ($2 = '' or "kemasan" ilike '%'||$2||'%')`. -/
def substrFilter (qname qpack : String) (p : Product) : Bool :=
  (pgILike p.nama ("%" ++ qname ++ "%") || pgILike p.sku ("%" ++ qname ++ "%")) &&
  (qpack = "" || pgILike p.kemasan ("%" ++ qpack ++ "%"))

/-- `order by "nama", "kemasan"`. -/
def substrLE (a b : Product) : Bool :=
  strLt a.nama b.nama || (a.nama == b.nama && strLe a.kemasan b.kemasan)

/-- `SQL_LOOKUP_SUBSTRING` (lines 187–194): name-or-SKU substring match
with optional pack substring, order by name then pack, `limit 5`. -/
def sql_lookup_substring (db : List Product) (qname qpack : String) : List PriceRow :=
  ((sortBy substrLE (db.filter (substrFilter qname qpack))).take 5).map
    (fun p => ⟨p.nama, p.kemasan, p.price, none⟩)

/-! ## The row store and the data-access helpers -/

/-- The row store, with one failure switch per query: a `true` flag makes
that fetch raise (an asyncpg exception), e.g. `fuzzyFails` when the
pg_trgm extension is missing, or `substrFails`/`countFails`/`listFails`/
`detailFails` when the store is unreachable during that call. -/
structure Store where
  db : List Product
  fuzzyFails : Bool := false
  substrFails : Bool := false
  countFails : Bool := false
  listFails : Bool := false
  detailFails : Bool := false

/-- `db_fetch(SQL_LOOKUP_FUZZY, ...)`. -/
def fetch_fuzzy (s : Store) (sim : String → String → ℚ) (qname qpack : String)
    (threshold : ℚ) : Except Unit (List PriceRow) :=
  if s.fuzzyFails then .error () else .ok (sql_lookup_fuzzy s.db sim qname qpack threshold)

/-- `db_fetch(SQL_LOOKUP_SUBSTRING, ...)`. -/
def fetch_substring (s : Store) (qname qpack : String) : Except Unit (List PriceRow) :=
  if s.substrFails then .error () else .ok (sql_lookup_substring s.db qname qpack)

/-- `db_fetch(SQL_COUNT_PRODUCTS, ...)`. -/
def fetch_count (s : Store) (q category : String) : Except Unit Nat :=
  if s.countFails then .error () else .ok (sql_count_products s.db q category)

/-- `db_fetch(SQL_LIST_PRODUCTS, ...)`.  PostgreSQL raises
`OFFSET must not be negative` on a negative offset, so a negative `$4`
is a failing fetch. -/
def fetch_list (s : Store) (q category : String) (lim : Nat) (off : Int) :
    Except Unit (List Product) :=
  if s.listFails then .error ()
  else if off < 0 then .error ()
  else .ok (sql_list_products s.db q category lim off.toNat)

/-- `db_fetch(SQL_PRODUCT_DETAIL, ...)`. -/
def fetch_detail (s : Store) (pid : Nat) : Except Unit (List Product) :=
  if s.detailFails then .error () else .ok (sql_product_detail s.db pid)

/-- `find_prices` (lines 199–210): strip the inputs, run the fuzzy lookup
with its exception swallowed into `[]`, and if no rows resulted run the
substring lookup (whose exception propagates). -/
def find_prices (s : Store) (sim : String → String → ℚ) (qname0 : String)
    (qpack0 : String) (threshold : ℚ) : Except Unit (List PriceRow) :=
  let qname := pyStrip qname0
  let qpack := pyStrip qpack0
  let rows := match fetch_fuzzy s sim qname qpack threshold with
    | .ok rs => rs
    | .error _ => []
  if rows.isEmpty then fetch_substring s qname qpack else .ok rows

/-- `PAGE_SIZE` (line 86). -/
def PAGE_SIZE : Nat := 5

/-- `list_products` (lines 212–220): count, then fetch one page at
`offset = (page - 1) * page_size`; any exception in either query is
caught and turned into `(0, [])`. -/
def list_products (s : Store) (q category : String) (page : Int)
    (page_size : Nat := PAGE_SIZE) : Nat × List Product :=
  match fetch_count s q category with
  | .error _ => (0, [])
  | .ok total =>
    match fetch_list s q category page_size ((page - 1) * page_size) with
    | .error _ => (0, [])
    | .ok rows => (total, rows)

/-- `last_page` as computed by `send_catalog` (line 246):
`max(1, (total + PAGE_SIZE - 1) // PAGE_SIZE)`, with the page size a
parameter. -/
def last_page (total pageSize : Nat) : Nat :=
  max 1 ((total + pageSize - 1) / pageSize)

/-- Outcome of `send_product_detail` (lines 283–292). -/
inductive DetailReply where
  | failure : DetailReply
  | notFound : DetailReply
  | detail : Product → DetailReply
deriving DecidableEq, Repr

/-- The message text `send_product_detail` sends in its two degenerate
outcomes (the full detail rendering is out of scope). -/
def detail_message : DetailReply → String
  | .failure => "Terjadi kesalahan saat mengambil detail produk."
  | .notFound => "Produk tidak ditemukan."
  | .detail _ => ""

/-- `send_product_detail` (lines 283–292): a raising detail fetch is
caught and reported as a generic failure; an empty result is reported as
not-found; otherwise the first row is rendered. -/
def send_product_detail (s : Store) (pid : Nat) : DetailReply :=
  match fetch_detail s pid with
  | .error _ => .failure
  | .ok [] => .notFound
  | .ok (r :: _) => .detail r

/-- Reply of the `/harga` branch of `telegram_webhook` (lines 456–465
under the catch-all of lines 479–488). -/
inductive HargaReply where
  | apology : HargaReply
  | notFoundMsg : HargaReply
  | priceList : List PriceRow → HargaReply
deriving DecidableEq, Repr

/-- The `/harga` command end to end: `find_prices` with the default
threshold 0.30 (= `mkRat 3 10`); an exception escaping it reaches only the router's
top-level `except`, which replies with the generic apology. -/
def webhook_harga (s : Store) (sim : String → String → ℚ)
    (name pack : String) : HargaReply :=
  match find_prices s sim name pack (mkRat 3 10) with
  | .error _ => .apology
  | .ok rows => if rows.isEmpty then .notFoundMsg else .priceList rows

/-! ## Sample data for witnesses -/

/-- Sample rows (the spec's §8 scenario products). -/
def pVita : Product := ⟨1, "SKU1", "Vita Stress", "100g", 15000, "Peternakan", ""⟩

def pVita2 : Product := ⟨2, "SKU2", "Vita Stress", "250g", 30000, "Peternakan", ""⟩

def pVitB : Product := ⟨3, "SKU3", "Vitamin B", "Box", 8000, "vaccine", ""⟩

def sampleDB : List Product := [pVita, pVita2, pVitB]

/-- A row whose name matches the LIKE pattern of query `a_c` without
containing `a_c` as a substring. -/
def pABC : Product := ⟨7, "", "abc", "", 0, "", ""⟩

/-- A concrete similarity function for witnesses: 1 on equal strings. -/
def simEq : String → String → ℚ := fun a b => if a = b then 1 else 0

/-! ## Helper lemmas -/

/-- `find_prices` propagates a substring-query failure whenever Tier 1
produced no rows (by raising or by returning zero rows). -/
theorem find_prices_error_of (s : Store) (sim : String → String → ℚ)
    (name pack : String) (threshold : ℚ) (hs : s.substrFails = true)
    (hf : s.fuzzyFails = true ∨
      sql_lookup_fuzzy s.db sim (pyStrip name) (pyStrip pack) threshold = []) :
    find_prices s sim name pack threshold = .error () := by
  unfold find_prices fetch_fuzzy fetch_substring
  rcases hf with hf | hf
  · simp [hf, hs]
  · cases hff : s.fuzzyFails <;> simp [hff, hf, hs]

/-- The page number produced by the parser is always at least 1. -/
theorem parse_page_pos (args : String) : 1 ≤ (parse_produk_args args).page := by
  unfold parse_produk_args
  split
  · exact le_refl 1
  · cases h : scanPage none args.data <;> simp [String.toList, h]

/-! ## Claims -/

/-- C7: for every listing request, a failure of the count query or of the
row query is caught inside `list_products`, which returns
`total_count = 0` and an empty row list instead of propagating. -/
theorem list_products_failure_swallowed (s : Store) (q category : String)
    (page : Int) (page_size : Nat)
    (h : s.countFails = true ∨ s.listFails = true) :
    list_products s q category page page_size = (0, []) := by
  unfold list_products fetch_count fetch_list
  rcases h with h | h
  · simp [h]
  · cases hc : s.countFails <;> simp [h, hc]

theorem list_products_failure_swallowed_witness :
    list_products ⟨sampleDB, false, false, true, false, false⟩ "" "" 1 5 = (0, []) :=
  list_products_failure_swallowed _ "" "" 1 5 (Or.inl rfl)

/-- C8: a product id with no matching record yields the not-found reply
(an empty result, not an exception), while a failing detail fetch yields
the generic failure reply, whose message differs from the not-found
message. -/
theorem send_product_detail_outcomes (s : Store) (pid : Nat) :
    (s.detailFails = true → send_product_detail s pid = .failure) ∧
    (s.detailFails = false → (∀ p ∈ s.db, p.id ≠ pid) →
      send_product_detail s pid = .notFound) ∧
    detail_message .failure ≠ detail_message .notFound := by
  refine ⟨?_, ?_, by decide⟩
  · intro h
    unfold send_product_detail fetch_detail
    simp [h]
  · intro h hn
    have hempty : sql_product_detail s.db pid = [] := by
      unfold sql_product_detail
      exact List.filter_eq_nil_iff.mpr (by intro a ha; simpa using hn a ha)
    unfold send_product_detail fetch_detail
    simp [h, hempty]

theorem send_product_detail_outcomes_witness :
    send_product_detail ⟨sampleDB, false, false, false, false, true⟩ 1 = .failure ∧
    send_product_detail ⟨sampleDB, false, false, false, false, false⟩ 99 = .notFound :=
  ⟨(send_product_detail_outcomes ⟨sampleDB, false, false, false, false, true⟩ 1).1 rfl,
   (send_product_detail_outcomes ⟨sampleDB, false, false, false, false, false⟩ 99).2.1 rfl
     (by decide)⟩

/-- C9: both lookup queries return at most 5 rows for every input. -/
theorem lookup_row_cap (db : List Product) (sim : String → String → ℚ)
    (qname qpack : String) (threshold : ℚ) :
    (sql_lookup_fuzzy db sim qname qpack threshold).length ≤ 5 ∧
    (sql_lookup_substring db qname qpack).length ≤ 5 := by
  constructor <;>
    simp [sql_lookup_fuzzy, sql_lookup_substring, List.length_take]

/-- C10: only the Tier-1 failure is swallowed; if the Tier-2 substring
query raises while Tier 1 produced no rows, `find_prices` returns the
error to its caller, and only the router's top-level catch-all turns it
into the generic apology reply. -/
theorem find_prices_substring_error_propagates (s : Store)
    (sim : String → String → ℚ) (name pack : String) :
    (∀ threshold : ℚ, s.substrFails = true →
      (s.fuzzyFails = true ∨
        sql_lookup_fuzzy s.db sim (pyStrip name) (pyStrip pack) threshold = []) →
      find_prices s sim name pack threshold = .error ()) ∧
    (s.substrFails = true →
      (s.fuzzyFails = true ∨
        sql_lookup_fuzzy s.db sim (pyStrip name) (pyStrip pack) (mkRat 3 10) = []) →
      webhook_harga s sim name pack = .apology) := by
  constructor
  · intro threshold hs hf
    exact find_prices_error_of s sim name pack threshold hs hf
  · intro hs hf
    unfold webhook_harga
    rw [find_prices_error_of s sim name pack (mkRat 3 10) hs hf]

theorem find_prices_substring_error_propagates_witness :
    find_prices ⟨sampleDB, true, true, false, false, false⟩ simEq "x" "" (mkRat 3 10) =
      .error () ∧
    webhook_harga ⟨sampleDB, true, true, false, false, false⟩ simEq "x" "" = .apology :=
  ⟨(find_prices_substring_error_propagates ⟨sampleDB, true, true, false, false, false⟩
      simEq "x" "").1 (mkRat 3 10) rfl (Or.inl rfl),
   (find_prices_substring_error_propagates ⟨sampleDB, true, true, false, false, false⟩
      simEq "x" "").2 rfl (Or.inl rfl)⟩

/-- C2: with both fetches healthy, page `p ≥ 1` and page size `S > 0`:
the returned total is the filter's match count; the rows are the slice of
the sorted matching rows starting at offset `(p - 1) * S`, of length at
most `S`; `last_page` equals `max 1 ⌈T / S⌉` (so `1` when `T = 0`); and a
page beyond `last_page` yields an empty row set rather than an error. -/
theorem list_products_pagination (s : Store) (q category : String) (p S : Nat)
    (hok : s.countFails = false) (hlk : s.listFails = false)
    (hp : 1 ≤ p) (hS : 0 < S) :
    (list_products s q category (p : Int) S).1 = sql_count_products s.db q category ∧
    (list_products s q category (p : Int) S).2 =
      ((sortBy listLE (s.db.filter (listFilter q category))).drop ((p - 1) * S)).take S ∧
    ((list_products s q category (p : Int) S).2).length ≤ S ∧
    last_page (sql_count_products s.db q category) S =
      max 1 (sql_count_products s.db q category ⌈/⌉ S) ∧
    last_page 0 S = 1 ∧
    (last_page (sql_count_products s.db q category) S < p →
      (list_products s q category (p : Int) S).2 = []) := by
  have hcast : (((p : Int) - 1) * (S : Int)).toNat = (p - 1) * S := by
    have h1 : ((p : Int) - 1) = ((p - 1 : Nat) : Int) := by omega
    rw [h1, ← Int.natCast_mul]
    exact Int.toNat_natCast _
  have hnn : ¬ (((p : Int) - 1) * (S : Int) < 0) := by
    push_neg
    have h1 : (0 : Int) ≤ (p : Int) - 1 := by omega
    positivity
  have hrows : (list_products s q category (p : Int) S).2 =
      ((sortBy listLE (s.db.filter (listFilter q category))).drop ((p - 1) * S)).take S := by
    unfold list_products fetch_count fetch_list sql_list_products
    simp [hok, hlk, hnn, hcast]
  have htot : (list_products s q category (p : Int) S).1 =
      sql_count_products s.db q category := by
    unfold list_products fetch_count fetch_list
    simp [hok, hlk, hnn]
  refine ⟨htot, hrows, ?_, ?_, ?_, ?_⟩
  · rw [hrows]
    simp [List.length_take]
  · unfold last_page
    rw [Nat.ceilDiv_eq_add_pred_div]
  · unfold last_page
    have hz : (S - 1) / S = 0 := Nat.div_eq_of_lt (by omega)
    simp [hz]
  · intro hlt
    set T := sql_count_products s.db q category with hT
    have hceil : T ≤ S * (T ⌈/⌉ S) := by
      have := (ceilDiv_le_iff_le_smul hS (b := T) (c := T ⌈/⌉ S)).mp le_rfl
      simpa using this
    have hlp : T ⌈/⌉ S ≤ p - 1 := by
      unfold last_page at hlt
      rw [Nat.ceilDiv_eq_add_pred_div]
      omega
    have hTle : T ≤ (p - 1) * S := by
      calc T ≤ S * (T ⌈/⌉ S) := hceil
        _ ≤ S * (p - 1) := Nat.mul_le_mul_left _ hlp
        _ = (p - 1) * S := Nat.mul_comm _ _
    have hlen : (sortBy listLE (s.db.filter (listFilter q category))).length = T := by
      rw [length_sortBy]
      rfl
    rw [hrows]
    rw [List.drop_eq_nil_of_le (by rw [hlen]; exact hTle)]
    simp

theorem list_products_pagination_witness :
    (list_products ⟨sampleDB, false, false, false, false, false⟩ "" ""
        ((4 : Nat) : Int) 5).2 = [] := by
  have h := list_products_pagination ⟨sampleDB, false, false, false, false, false⟩ "" "" 4 5
    rfl rfl (by decide) (by decide)
  exact h.2.2.2.2.2 (by decide)

/-- C6 counterexample: with one matching product, page 0 makes the row
query's offset negative, the raised error is swallowed, and
`list_products` returns `(0, [])`, while page 1 returns the row — so
page 0 does not behave like page 1 at the `list_products` level. -/
theorem list_products_page_zero_counterexample :
    list_products ⟨sampleDB, false, false, false, false, false⟩ "" "" 0 5 = (0, []) ∧
    list_products ⟨sampleDB, false, false, false, false, false⟩ "" "" 1 5 ≠ (0, []) := by
  constructor
  · decide
  · decide

/-- C6 (amended): a direct `list_products` call with `page ≤ 0` returns
`(0, [])` — the negative offset makes the row fetch raise, and the error
is swallowed — and no command-parsed request can reach `list_products`
with `page ≤ 0`, because the parser clamps the page to a minimum of 1. -/
theorem list_products_nonpositive_page (s : Store) (q category : String)
    (page : Int) (S : Nat) (hpg : page ≤ 0) (hS : 0 < S) :
    list_products s q category page S = (0, []) ∧
    (∀ args : String, 1 ≤ (parse_produk_args args).page) := by
  constructor
  · have hneg : (page - 1) * (S : Int) < 0 := by
      have h1 : page - 1 < 0 := by omega
      have h2 : (0 : Int) < (S : Int) := by exact_mod_cast hS
      exact mul_neg_of_neg_of_pos h1 h2
    unfold list_products fetch_count fetch_list
    cases hc : s.countFails
    · simp [hc, hneg]
    · simp [hc]
  · exact parse_page_pos

theorem list_products_nonpositive_page_witness :
    list_products ⟨sampleDB, false, false, false, false, false⟩ "" "" 0 5 = (0, []) ∧
    1 ≤ (parse_produk_args "page 0").page := by
  have h := list_products_nonpositive_page ⟨sampleDB, false, false, false, false, false⟩
    "" "" 0 5 (by decide) (by decide)
  exact ⟨h.1, h.2 "page 0"⟩

/-- The tier-2 ordering on result rows: name ascending, then pack
ascending. -/
def rowLE (a b : PriceRow) : Bool :=
  strLt a.name b.name || (a.name == b.name && strLe a.pack b.pack)

theorem substrLE_trans (a b c : Product) (hab : substrLE a b = true)
    (hbc : substrLE b c = true) : substrLE a c = true := by
  simp only [substrLE, Bool.or_eq_true, Bool.and_eq_true, beq_iff_eq] at *
  rcases hab with h1 | ⟨h1, h2⟩ <;> rcases hbc with h3 | ⟨h3, h4⟩
  · exact Or.inl (lexLtCh_trans _ _ _ h1 h3)
  · exact Or.inl (h3 ▸ h1)
  · exact Or.inl (h1 ▸ h3)
  · exact Or.inr ⟨h1.trans h3, strLe_trans h2 h4⟩

theorem substrLE_total (a b : Product) : substrLE a b || substrLE b a := by
  simp only [substrLE, Bool.or_eq_true, Bool.and_eq_true, beq_iff_eq]
  cases hab : strLt a.nama b.nama
  · cases hba : strLt b.nama a.nama
    · have heq : a.nama = b.nama := strLt_connex _ _ hab hba
      have := strLe_total a.kemasan b.kemasan
      simp only [Bool.or_eq_true] at this
      rcases this with h2 | h2
      · exact Or.inl (Or.inr ⟨heq, h2⟩)
      · exact Or.inr (Or.inr ⟨heq.symm, h2⟩)
    · exact Or.inr (Or.inl rfl)
  · exact Or.inl (Or.inl rfl)

/-- The tier-2 lookup result is sorted by name ascending then pack
ascending. -/
theorem sql_lookup_substring_sorted (db : List Product) (qname qpack : String) :
    (sql_lookup_substring db qname qpack).Pairwise (fun a b => rowLE a b = true) := by
  unfold sql_lookup_substring
  have hs : (sortBy substrLE (db.filter (substrFilter qname qpack))).Pairwise
      (fun a b => substrLE a b = true) :=
    sorted_sortBy substrLE (fun a b c => substrLE_trans a b c)
      (fun a b => substrLE_total a b) (db.filter (substrFilter qname qpack))
  have htake : ((sortBy substrLE (db.filter (substrFilter qname qpack))).take 5).Pairwise
      (fun a b => substrLE a b = true) :=
    hs.sublist (List.take_sublist _ _)
  refine List.Pairwise.map _ ?_ htake
  intro a b hab
  simp only [substrLE, Bool.or_eq_true, Bool.and_eq_true, beq_iff_eq] at hab
  simp only [rowLE, Bool.or_eq_true, Bool.and_eq_true, beq_iff_eq]
  exact hab

/-- C1: the Tier-2 substring search runs iff Tier 1 returned zero rows or
raised (the Tier-1 error being swallowed); with at least one Tier-1 row
the Tier-1 rows are returned unchanged (Tier 2 never runs, whatever the
substring query would do); when Tier 2 runs its outcome is returned
verbatim, and its rows are ordered by name ascending then pack
ascending. -/
theorem find_prices_tier_semantics (s : Store) (sim : String → String → ℚ)
    (qname qpack : String) (threshold : ℚ) :
    (s.fuzzyFails = false →
      sql_lookup_fuzzy s.db sim (pyStrip qname) (pyStrip qpack) threshold ≠ [] →
      find_prices s sim qname qpack threshold =
        .ok (sql_lookup_fuzzy s.db sim (pyStrip qname) (pyStrip qpack) threshold)) ∧
    ((s.fuzzyFails = true ∨
        sql_lookup_fuzzy s.db sim (pyStrip qname) (pyStrip qpack) threshold = []) →
      find_prices s sim qname qpack threshold =
        fetch_substring s (pyStrip qname) (pyStrip qpack)) ∧
    (sql_lookup_substring s.db (pyStrip qname) (pyStrip qpack)).Pairwise
      (fun a b => rowLE a b = true) := by
  refine ⟨?_, ?_, sql_lookup_substring_sorted _ _ _⟩
  · intro hff hne
    unfold find_prices fetch_fuzzy
    simp [hff, hne]
  · intro h
    unfold find_prices fetch_fuzzy
    rcases h with h | h
    · simp [h]
    · cases hff : s.fuzzyFails <;> simp [hff, h]

theorem find_prices_tier_semantics_witness :
    find_prices ⟨sampleDB, false, false, false, false, false⟩ simEq
        "Vita Stress" "" (mkRat 3 10) =
      .ok (sql_lookup_fuzzy sampleDB simEq (pyStrip "Vita Stress") (pyStrip "")
        (mkRat 3 10)) ∧
    find_prices ⟨sampleDB, true, false, false, false, false⟩ simEq "Vita" ""
        (mkRat 3 10) =
      fetch_substring ⟨sampleDB, true, false, false, false, false⟩
        (pyStrip "Vita") (pyStrip "") :=
  ⟨(find_prices_tier_semantics ⟨sampleDB, false, false, false, false, false⟩
      simEq "Vita Stress" "" (mkRat 3 10)).1 rfl (by decide),
   (find_prices_tier_semantics ⟨sampleDB, true, false, false, false, false⟩
      simEq "Vita" "" (mkRat 3 10)).2.1 (Or.inl rfl)⟩

/-! ## LIKE patterns built as a plain query wrapped in two percents -/

theorem suffAny_eq_tails_any (f : List Char → Bool) :
    ∀ t : List Char, suffAny f t = t.tails.any f := by
  intro t
  induction t with
  | nil => simp [suffAny]
  | cons c cs ih => simp [suffAny, List.tails_cons, ih]

theorem likeMatch_pct_one : ∀ t : List Char, likeMatch ['%'] t = true := by
  intro t
  induction t with
  | nil => rfl
  | cons c cs ih => simp [likeMatch, suffAny, ih, likeMatch] at ih ⊢; simp [suffAny, ih]

theorem likeMatch_plain : ∀ q ps t, noWild q = true →
    likeMatch (q ++ ps) t = (q.isPrefixOf t && likeMatch ps (t.drop q.length)) := by
  intro q
  induction q with
  | nil => intro ps t _; simp [List.isPrefixOf]
  | cons c q ih =>
    intro ps t hw
    simp only [noWild, List.all_cons, Bool.and_eq_true, decide_eq_true_eq, ne_eq] at hw
    obtain ⟨⟨⟨h1, h2⟩, h3⟩, hq⟩ := hw
    have hq' : noWild q = true := by
      simp only [noWild]
      exact hq
    cases t with
    | nil =>
      rw [List.cons_append, likeMatch.eq_def]
      split <;> simp_all [List.isPrefixOf]
    | cons d ds =>
      rw [List.cons_append, likeMatch.eq_def]
      split <;>
        first
          | (simp_all [List.isPrefixOf]; done)
          | (rename_i heq
             obtain ⟨rfl, rfl⟩ := heq
             simp [List.isPrefixOf, ih ps ds hq', Bool.and_assoc]
             rfl)

theorem any_funext {l : List (List Char)} {f g : List Char → Bool}
    (h : ∀ x, f x = g x) : l.any f = l.any g := by
  induction l with
  | nil => rfl
  | cons a l ih => simp [List.any_cons, h a, ih]

/-- A wildcard-free query wrapped in two percent signs matches exactly
the texts containing the query. -/
theorem likeMatch_wrap (Q : List Char) (hw : noWild Q = true) (t : List Char) :
    likeMatch ('%' :: (Q ++ ['%'])) t = containsSub t Q := by
  have hpct : likeMatch ('%' :: (Q ++ ['%'])) t = suffAny (likeMatch (Q ++ ['%'])) t := by
    simp [likeMatch]
  rw [hpct, suffAny_eq_tails_any]
  unfold containsSub
  apply any_funext
  intro t2
  rw [likeMatch_plain Q ['%'] t2 hw, likeMatch_pct_one, Bool.and_true]

/-! ## Lowercasing -/

theorem char_toNat_toLower (c : Char) :
    c.toLower.toNat = if c.toNat ≥ 65 ∧ c.toNat ≤ 90 then c.toNat + 32 else c.toNat := by
  unfold Char.toLower
  split
  · rename_i h
    rw [if_pos h]
    unfold Char.ofNat
    rw [dif_pos (Or.inl (by omega))]
    rfl
  · rename_i h
    rw [if_neg h]

theorem char_toLower_idem (c : Char) : c.toLower.toLower = c.toLower := by
  apply Char.eq_of_val_eq
  apply UInt32.toNat.inj
  show c.toLower.toLower.toNat = c.toLower.toNat
  have h1 := char_toNat_toLower c
  have h2 := char_toNat_toLower c.toLower
  rw [h2, h1]
  split_ifs <;> omega

theorem char_toLower_eq_special {c x : Char}
    (hx : ¬(x.toNat ≥ 97 ∧ x.toNat ≤ 122)) (h : c.toLower = x) : c = x := by
  have hn := congrArg Char.toNat h
  rw [char_toNat_toLower] at hn
  split at hn
  · rename_i hc
    exact absurd ⟨by omega, by omega⟩ hx
  · exact Char.eq_of_val_eq (UInt32.toNat.inj hn)

theorem noWild_map_toLower (l : List Char) (h : noWild l = true) :
    noWild (l.map Char.toLower) = true := by
  simp only [noWild, List.all_map, List.all_eq_true, Function.comp] at *
  intro c hc
  have hcw := h c hc
  simp only [Bool.and_eq_true, decide_eq_true_eq, ne_eq] at hcw ⊢
  obtain ⟨⟨h1, h2⟩, h3⟩ := hcw
  refine ⟨⟨?_, ?_⟩, ?_⟩
  · exact fun he => h1 (char_toLower_eq_special (by decide) he)
  · exact fun he => h2 (char_toLower_eq_special (by decide) he)
  · exact fun he => h3 (char_toLower_eq_special (by decide) he)

theorem lowerStr_eq (s : String) : lowerStr s = s.toLower := by
  show String.mk (s.data.map Char.toLower) = String.map Char.toLower s
  rw [String.map_eq]

theorem lowerStr_toList (s : String) : (lowerStr s).toList = s.toList.map Char.toLower :=
  rfl

theorem map_toLower_idem (l : List Char) :
    (l.map Char.toLower).map Char.toLower = l.map Char.toLower := by
  induction l with
  | nil => rfl
  | cons c cs ih => simp [char_toLower_idem, ih]

/-- The ILIKE filter the listing query builds from a wildcard-free,
pre-lowercased query is exactly case-insensitive substring
containment. -/
theorem pgILike_pct_eq_containsSubCI (nm q : String) (hw : noWild q.toList = true) :
    pgILike (lowerStr nm) ("%" ++ lowerStr q ++ "%") = containsSubCI nm q := by
  unfold pgILike containsSubCI
  have htext : (lowerStr (lowerStr nm)).toList = nm.toList.map Char.toLower := by
    rw [lowerStr_toList, lowerStr_toList, map_toLower_idem]
  have hpat : (lowerStr ("%" ++ lowerStr q ++ "%")).toList =
      '%' :: (q.toList.map Char.toLower ++ ['%']) := by
    rw [lowerStr_toList]
    have hbase : ("%" ++ lowerStr q ++ "%").toList = '%' :: ((lowerStr q).toList ++ ['%']) := by
      rfl
    rw [hbase]
    simp only [List.map_cons, List.map_append]
    rw [lowerStr_toList, map_toLower_idem]
    rfl
  rw [htext, hpat,
    likeMatch_wrap (q.toList.map Char.toLower) (noWild_map_toLower _ hw)]
  rw [lowerStr_toList, lowerStr_toList]

theorem listLE_trans (a b c : Product) (hab : listLE a b = true)
    (hbc : listLE b c = true) : listLE a c = true := by
  simp only [listLE, Bool.or_eq_true, Bool.and_eq_true, beq_iff_eq] at *
  rcases hab with h1 | ⟨h1, h2⟩ <;> rcases hbc with h3 | ⟨h3, h4⟩
  · exact Or.inl (lexLtCh_trans _ _ _ h1 h3)
  · exact Or.inl (h3 ▸ h1)
  · exact Or.inl (h1 ▸ h3)
  · exact Or.inr ⟨h1.trans h3, strLe_trans h2 h4⟩

theorem listLE_total (a b : Product) : listLE a b || listLE b a := by
  simp only [listLE, Bool.or_eq_true, Bool.and_eq_true, beq_iff_eq]
  cases hab : strLt (lowerStr a.nama) (lowerStr b.nama)
  · cases hba : strLt (lowerStr b.nama) (lowerStr a.nama)
    · have heq : lowerStr a.nama = lowerStr b.nama := strLt_connex _ _ hab hba
      have := strLe_total a.kemasan b.kemasan
      simp only [Bool.or_eq_true] at this
      rcases this with h2 | h2
      · exact Or.inl (Or.inr ⟨heq, h2⟩)
      · exact Or.inr (Or.inr ⟨heq.symm, h2⟩)
    · exact Or.inr (Or.inl rfl)
  · exact Or.inl (Or.inl rfl)

/-- C5 counterexample: the name filter is the SQL pattern
`'%'||query||'%'`, in which `_` is a single-character wildcard — the
query `a_c` selects the product named `abc` although `abc` does not
contain `a_c` as a (case-insensitive) substring, so "non-empty
query_text selects exactly the rows whose name contains it" fails. -/
theorem list_filter_wildcard_counterexample :
    sql_list_products [pABC] "a_c" "" 5 0 = [pABC] ∧
    containsSubCI "abc" "a_c" = false := by
  constructor
  · decide
  · decide

/-- C5 (amended): for a query free of the LIKE metacharacters `%`, `_`
and `\`, the full (unpaginated) listing contains exactly the rows of the
table that pass the spec's filters — no name filter for an empty query,
case-insensitive substring containment of the query in the name
otherwise; no category filter for an empty category, case-insensitive
exact category equality otherwise — and every listing page is sorted by
lowercased name and then by pack. -/
theorem list_products_filter_semantics (db : List Product) (q cat : String)
    (hw : noWild q.toList = true) :
    (∀ p : Product, p ∈ sql_list_products db q cat db.length 0 ↔
      p ∈ db ∧ (q = "" ∨ containsSubCI p.nama q = true) ∧
        (cat = "" ∨ lowerStr p.kategori = lowerStr cat)) ∧
    (∀ lim off, (sql_list_products db q cat lim off).Pairwise
      (fun a b => listLE a b = true)) := by
  constructor
  · intro p
    have hall : sql_list_products db q cat db.length 0 =
        sortBy listLE (db.filter (listFilter q cat)) := by
      unfold sql_list_products
      rw [List.drop_zero, List.take_of_length_le
        (by rw [length_sortBy]; exact List.length_filter_le _ _)]
    rw [hall, mem_sortBy, List.mem_filter]
    unfold listFilter
    rw [pgILike_pct_eq_containsSubCI p.nama q hw]
    simp only [Bool.and_eq_true, Bool.or_eq_true, decide_eq_true_eq, beq_iff_eq]
  · intro lim off
    have hs : (sortBy listLE (db.filter (listFilter q cat))).Pairwise
        (fun a b => listLE a b = true) :=
      sorted_sortBy listLE (fun a b c => listLE_trans a b c)
        (fun a b => listLE_total a b) _
    unfold sql_list_products
    exact hs.sublist ((List.take_sublist _ _).trans (List.drop_sublist _ _))

theorem list_products_filter_semantics_witness :
    noWild "vita".toList = true ∧
    pVita ∈ sql_list_products sampleDB "vita" "" sampleDB.length 0 := by
  refine ⟨by decide, ?_⟩
  have h := (list_products_filter_semantics sampleDB "vita" "" (by decide)).1 pVita
  exact h.mpr (by decide)

/-! ## Page-token recognition (C4) -/

theorem matchCI_append : ∀ ks l rest, matchCI ks l = some [] →
    matchCI ks (l ++ rest) = some rest := by
  intro ks
  induction ks with
  | nil =>
    intro l rest h
    simp only [matchCI, Option.some.injEq] at h
    subst h
    rfl
  | cons k ks ih =>
    intro l rest h
    cases l with
    | nil => simp [matchCI] at h
    | cons c cs =>
      simp only [matchCI] at h ⊢
      split at h
      · rename_i hc
        simp only [List.cons_append, matchCI, hc, if_pos]
        exact ih cs rest h
      · exact absurd h (by simp)

theorem takeWhile_all_append (p : Char → Bool) :
    ∀ xs ys, (∀ c ∈ xs, p c = true) →
      List.takeWhile p (xs ++ ys) = xs ++ List.takeWhile p ys := by
  intro xs
  induction xs with
  | nil => intro ys _; rfl
  | cons x xs ih =>
    intro ys h
    have hx : p x = true := h x (by simp)
    simp only [List.cons_append, List.takeWhile_cons, hx, if_pos]
    rw [ih ys (fun c hc => h c (by simp [hc]))]

theorem digit_isWordChar {c : Char} (h : c.isDigit = true) : isWordChar c = true := by
  simp [isWordChar, Char.isAlphanum, h]

theorem isDigit_toNat {c : Char} (h : c.isDigit = true) :
    48 ≤ c.toNat ∧ c.toNat ≤ 57 := by
  simp only [Char.isDigit, Bool.and_eq_true, decide_eq_true_eq, Char.le_def,
    UInt32.le_def, BitVec.le_def] at h
  exact ⟨h.1, h.2⟩

theorem isSpaceChar_toNat {c : Char} (h : isSpaceChar c = true) :
    c.toNat = 32 ∨ c.toNat = 9 ∨ c.toNat = 10 ∨ c.toNat = 13 ∨
      c.toNat = 11 ∨ c.toNat = 12 := by
  simp only [isSpaceChar, Bool.or_eq_true, decide_eq_true_eq] at h
  rcases h with ((((h | h) | h) | h) | h) | h
  · subst h; exact Or.inl rfl
  · subst h; exact Or.inr (Or.inl rfl)
  · subst h; exact Or.inr (Or.inr (Or.inl rfl))
  · subst h; exact Or.inr (Or.inr (Or.inr (Or.inl rfl)))
  · exact Or.inr (Or.inr (Or.inr (Or.inr (Or.inl h))))
  · exact Or.inr (Or.inr (Or.inr (Or.inr (Or.inr h))))

theorem isSpaceChar_of_isDigit {c : Char} (h : c.isDigit = true) :
    isSpaceChar c = false := by
  cases hs : isSpaceChar c
  · rfl
  · have h1 := isDigit_toNat h
    have h2 := isSpaceChar_toNat hs
    omega

/-- A full page token (the word `page` in any letter case, whitespace,
digits) placed before a word boundary is matched by `tryPageAt`. -/
theorem tryPageAt_token (w sp d post : List Char)
    (hw : matchCI "page".toList w = some [])
    (hsp : sp ≠ []) (hsp2 : ∀ c ∈ sp, isSpaceChar c = true)
    (hd : d ≠ []) (hd2 : ∀ c ∈ d, c.isDigit = true)
    (hpost : bdAfterWord post = true) :
    tryPageAt (w ++ (sp ++ (d ++ post))) = some (d, post) := by
  unfold tryPageAt
  rw [matchCI_append _ _ _ hw]
  have hdhead : ∀ l, d ++ post = l → List.takeWhile isSpaceChar l = [] := by
    intro l hl
    cases d with
    | nil => exact absurd rfl hd
    | cons d0 ds =>
      have hd0 : isSpaceChar d0 = false :=
        isSpaceChar_of_isDigit (hd2 d0 (by simp))
      subst hl
      simp [List.takeWhile_cons, hd0]
  have hws : List.takeWhile isSpaceChar (sp ++ (d ++ post)) = sp := by
    rw [takeWhile_all_append _ _ _ hsp2, hdhead _ rfl, List.append_nil]
  dsimp only
  rw [hws]
  rw [if_neg (by simpa [List.length_eq_zero] using hsp)]
  rw [List.drop_left]
  have hdg : List.takeWhile Char.isDigit (d ++ post) = d := by
    rw [takeWhile_all_append _ _ _ hd2]
    cases post with
    | nil => simp
    | cons p0 ps =>
      have : Char.isDigit p0 = false := by
        by_contra hdig
        simp only [Bool.not_eq_false] at hdig
        have := digit_isWordChar hdig
        simp [bdAfterWord, this] at hpost
      simp [List.takeWhile_cons, this]
  rw [hdg]
  rw [if_neg (by simpa [List.isEmpty_iff] using hd)]
  rw [List.drop_left]
  rw [if_pos hpost]

/-- A page token anywhere in the scanned text is found by `scanPage`
(`prev` is the character preceding the scan window). -/
theorem scanPage_isSome : ∀ (pre : List Char) (prev : Option Char) (rest : List Char),
    (tryPageAt rest).isSome = true →
    (pre = [] → bdOk prev = true) →
    (∀ x, pre.getLast? = some x → isWordChar x = false) →
    (scanPage prev (pre ++ rest)).isSome = true := by
  intro pre
  induction pre with
  | nil =>
    intro prev rest ht hb _
    cases rest with
    | nil => simp [tryPageAt, matchCI] at ht
    | cons c cs =>
      simp only [List.nil_append]
      unfold scanPage
      rw [if_pos (hb rfl)]
      cases h : tryPageAt (c :: cs) with
      | none => rw [h] at ht; simp at ht
      | some v => simp [h]
  | cons c pre' ih =>
    intro prev rest ht hb hl
    simp only [List.cons_append]
    unfold scanPage
    have hnext : (scanPage (some c) (pre' ++ rest)).isSome = true := by
      apply ih (some c) rest ht
      · intro hpre'
        subst hpre'
        have := hl c (by simp)
        simp [bdOk, this]
      · intro x hx
        apply hl x
        cases pre' with
        | nil => simp at hx
        | cons e es => simpa [List.getLast?_cons_cons] using hx
    by_cases hbd : bdOk prev = true
    · rw [if_pos hbd]
      cases h : tryPageAt (c :: (pre' ++ rest)) with
      | none => simpa using hnext
      | some v => simp
    · rw [if_neg hbd]
      simpa using hnext

/-- C4: the parser's page component — a `page <N>` token (the word `page`
in any letter case, then whitespace, then digits, delimited by word
boundaries) anywhere in the input is recognized; the page defaults to 1
when no token is found; and the extracted number is clamped to a minimum
of 1, so the result is always at least 1 (`parse_produk_args` is a total
function: no input raises an error). -/
theorem parse_produk_page_semantics (args : String) :
    1 ≤ (parse_produk_args args).page ∧
    (parse_produk_args args).page =
      (match scanPage none args.toList with
        | some ds => max 1 (natOfDigits ds)
        | none => 1) ∧
    (scanPage none args.toList = none → (parse_produk_args args).page = 1) ∧
    (∀ (pre w sp d post : List Char),
      matchCI "page".toList w = some [] →
      sp ≠ [] → (∀ c ∈ sp, isSpaceChar c = true) →
      d ≠ [] → (∀ c ∈ d, c.isDigit = true) →
      bdAfterWord post = true →
      (∀ x, pre.getLast? = some x → isWordChar x = false) →
      (scanPage none (pre ++ (w ++ (sp ++ (d ++ post))))).isSome = true) := by
  have hpage : (parse_produk_args args).page =
      (match scanPage none args.toList with
        | some ds => max 1 (natOfDigits ds)
        | none => 1) := by
    unfold parse_produk_args
    split
    · rename_i hargs
      subst hargs
      rfl
    · cases h : scanPage none args.data <;> simp [String.toList, h]
  refine ⟨parse_page_pos args, hpage, ?_, ?_⟩
  · intro hnone
    rw [hpage, hnone]
  · intro pre w sp d post hw hsp hsp2 hd hd2 hpost hlast
    apply scanPage_isSome pre none (w ++ (sp ++ (d ++ post)))
    · rw [tryPageAt_token w sp d post hw hsp hsp2 hd hd2 hpost]
      rfl
    · intro _
      rfl
    · exact hlast

theorem parse_produk_page_semantics_witness :
    (parse_produk_args "x").page = 1 ∧
    (scanPage none ("x ".toList ++ ("PagE".toList ++ ([' '] ++
      (['1', '2'] ++ ['!'])))) ).isSome = true := by
  constructor
  · exact (parse_produk_page_semantics "x").2.2.1 (by decide)
  · refine (parse_produk_page_semantics "x").2.2.2 "x ".toList "PagE".toList [' ']
      ['1', '2'] ['!'] (by decide) (by decide) (by decide) (by decide) (by decide)
      (by decide) ?_
    intro x hx
    have hval : ("x ".toList).getLast? = some ' ' := by decide
    rw [hval, Option.some.injEq] at hx
    subst hx
    decide

/-! ## Category extraction (C3) -/

theorem toList_append (a b : String) : (a ++ b).toList = a.toList ++ b.toList := rfl

theorem string_mk_toList (s : String) : String.mk s.toList = s := rfl

/-- A quoted category token at the head of the text is matched by
`tryQuotedAt`, capturing the quoted body verbatim. -/
theorem tryQuotedAt_at (body rest : List Char) (hb : body ≠ [])
    (hq : dq ∉ body) :
    tryQuotedAt ("kategori".toList ++ (' ' :: dq :: (body ++ (dq :: rest)))) =
      some (body, rest) := by
  unfold tryQuotedAt
  rw [matchCI_append _ _ _ (by decide)]
  dsimp only
  have hws : List.takeWhile isSpaceChar (' ' :: dq :: (body ++ (dq :: rest))) = [' '] := by
    simp [List.takeWhile_cons, isSpaceChar, dq]
  rw [hws]
  rw [if_neg (by decide)]
  simp only [List.length_singleton, List.drop_succ_cons, List.drop_zero, if_true]
  have hbody : List.takeWhile (fun x => x ≠ dq) (body ++ (dq :: rest)) = body := by
    rw [takeWhile_all_append]
    · simp [List.takeWhile_cons]
    · intro c hc
      simp only [decide_eq_true_eq, ne_eq]
      exact fun he => hq (he ▸ hc)
  rw [hbody]
  rw [if_neg (by simpa [List.isEmpty_iff] using hb)]
  rw [List.drop_left]
  simp

/-- The rest returned by `matchCI` is a sublist of the input. -/
theorem matchCI_sublist : ∀ ks l r, matchCI ks l = some r → r.Sublist l := by
  intro ks
  induction ks with
  | nil =>
    intro l r h
    simp only [matchCI, Option.some.injEq] at h
    subst h
    exact List.Sublist.refl _
  | cons k ks ih =>
    intro l r h
    cases l with
    | nil => simp [matchCI] at h
    | cons c cs =>
      simp only [matchCI] at h
      split at h
      · exact (ih cs r h).trans (List.sublist_cons_self c cs)
      · exact absurd h (by simp)

/-- If a quoted-token match succeeds, the text contains a double quote. -/
theorem tryQuotedAt_mem {l body rest} (h : tryQuotedAt l = some (body, rest)) :
    dq ∈ l := by
  unfold tryQuotedAt at h
  split at h
  · exact absurd h (by simp)
  · rename_i r hm
    have hsub := matchCI_sublist _ _ _ hm
    simp only at h
    split at h
    · exact absurd h (by simp)
    · split at h
      · exact absurd h (by simp)
      · rename_i c r2 hdrop
        split at h
        · rename_i hc
          subst hc
          have hmem : dq ∈ r.drop (r.takeWhile isSpaceChar).length := by
            rw [hdrop]
            exact List.mem_cons_self _ _
          exact hsub.subset ((List.drop_sublist _ _).subset hmem)
        · exact absurd h (by simp)

/-- Without a double quote in the text, the quoted-category search finds
nothing. -/
theorem scanQuoted_none : ∀ (l : List Char) (prev : Option Char), dq ∉ l →
    scanQuoted prev l = none := by
  intro l
  induction l with
  | nil => intro prev _; rfl
  | cons c cs ih =>
    intro prev hndq
    unfold scanQuoted
    have htry : tryQuotedAt (c :: cs) = none := by
      cases h : tryQuotedAt (c :: cs) with
      | none => rfl
      | some v =>
        obtain ⟨b, r⟩ := v
        exact absurd (tryQuotedAt_mem h) hndq
    rw [htry]
    have hrec := ih (some c) (fun hm => hndq (List.mem_cons_of_mem c hm))
    split <;> exact hrec

/-- A successful head-position quoted match makes the search return its
group. -/
theorem scanQuoted_head {c : Char} {cs body rest : List Char} {prev : Option Char}
    (hbd : bdOk prev = true) (h : tryQuotedAt (c :: cs) = some (body, rest)) :
    scanQuoted prev (c :: cs) = some body := by
  unfold scanQuoted
  rw [if_pos hbd, h]

theorem toList_eq_nil {s : String} (h : s.toList = []) : s = "" := by
  cases s
  simp only [String.toList] at h
  subst h
  rfl

/-- With no lookahead hit inside and no newline, the lazy group walks to
the end of the text (where `$` holds). -/
theorem lazyDot_to_end : ∀ (rest acc : List Char), acc ≠ [] →
    '\n' ∉ rest →
    (∀ t, t <:+ rest → t ≠ [] → lookaheadOk t = false) →
    lazyDot acc rest = some (acc.reverse ++ rest, []) := by
  intro rest
  induction rest with
  | nil =>
    intro acc hacc _ _
    have hE : lookaheadOk [] = true := rfl
    simp [lazyDot, hE, hacc]
  | cons c cs ih =>
    intro acc hacc hnl hlk
    have h1 : lookaheadOk (c :: cs) = false := hlk _ (List.suffix_refl _) (by simp)
    have hc : c ≠ '\n' := fun h => hnl (h ▸ List.mem_cons_self c cs)
    have hrec := ih (c :: acc) (by simp) (fun h => hnl (List.mem_cons_of_mem _ h))
      (fun t ht hne => hlk t (ht.trans (List.suffix_cons c cs)) hne)
    simp only [lazyDot, h1, Bool.and_false, if_neg, hc, ite_false, hrec]
    simp

/-- An unquoted category token at the head of the text captures
everything up to the end of the string when no page token occurs
inside. -/
theorem tryUnquotedAt_at (c : Char) (cs : List Char)
    (hcs : isSpaceChar c = false) (hnl : '\n' ∉ c :: cs)
    (hlk : ∀ t, t <:+ cs → t ≠ [] → lookaheadOk t = false) :
    tryUnquotedAt ("kategori".toList ++ (' ' :: c :: cs)) = some (c :: cs, []) := by
  unfold tryUnquotedAt
  rw [matchCI_append _ _ _ (by decide)]
  dsimp only
  have hws : List.takeWhile isSpaceChar (' ' :: c :: cs) = [' '] := by
    simp only [List.takeWhile_cons]
    rw [if_pos (by decide), if_neg (by simp [hcs])]
  rw [hws]
  rw [if_neg (by decide)]
  simp only [List.length_singleton]
  unfold tryUnquotGroup
  simp only [List.drop_succ_cons, List.drop_zero]
  have hc : c ≠ '\n' := fun h => hnl (h ▸ List.mem_cons_self c cs)
  have hstep : lazyDot [] (c :: cs) = lazyDot [c] cs := by
    simp [lazyDot, hc]
  rw [hstep, lazyDot_to_end cs [c] (by simp)
    (fun h => hnl (List.mem_cons_of_mem _ h)) hlk]
  rfl

/-- A successful head-position unquoted match makes the search return
its group. -/
theorem scanUnquoted_head {c : Char} {cs g rest : List Char} {prev : Option Char}
    (hbd : bdOk prev = true) (h : tryUnquotedAt (c :: cs) = some (g, rest)) :
    scanUnquoted prev (c :: cs) = some g := by
  unfold scanUnquoted
  rw [if_pos hbd, h]

/-- The head of a strip-fixed non-empty list is not whitespace. -/
theorem stripL_self_head {c : Char} {cs : List Char}
    (h : stripL (c :: cs) = c :: cs) : isSpaceChar c = false := by
  cases hc : isSpaceChar c
  · rfl
  · exfalso
    have h1 : List.dropWhile isSpaceChar (c :: cs) = List.dropWhile isSpaceChar cs := by
      simp [List.dropWhile_cons, hc]
    have hlen : (stripL (c :: cs)).length ≤ cs.length := by
      unfold stripL
      rw [h1]
      have l1 : (List.dropWhile isSpaceChar cs).length ≤ cs.length :=
        (List.dropWhile_sublist _).length_le
      have l2 : (((List.dropWhile isSpaceChar cs).reverse.dropWhile
          isSpaceChar)).length ≤ (List.dropWhile isSpaceChar cs).length := by
        have := (List.dropWhile_sublist (l := (List.dropWhile isSpaceChar cs).reverse)
          isSpaceChar).length_le
        simpa using this
      simp only [List.length_reverse]
      omega
    rw [h] at hlen
    simp at hlen

/-- A double-quoted category value with no inner quote, no surrounding
whitespace, is extracted exactly. -/
theorem parse_quoted_value (kat : String) (hne : kat ≠ "")
    (hq : dq ∉ kat.toList) (hs : stripL kat.toList = kat.toList) :
    (parse_produk_args ("kategori \"" ++ kat ++ "\"")).kat = kat := by
  have hshape : ("kategori \"" ++ kat ++ "\"").toList =
      "kategori".toList ++ (' ' :: dq :: (kat.toList ++ (dq :: []))) := by
    show (("kategori \"".data ++ kat.data) ++ "\"".data) = _
    simp [dq]
  have hnil : kat.toList ≠ [] := fun h => hne (toList_eq_nil h)
  have htry : tryQuotedAt ("kategori".toList ++ (' ' :: dq :: (kat.toList ++ (dq :: [])))) =
      some (kat.toList, []) := tryQuotedAt_at kat.toList [] hnil hq
  have hscan : scanQuoted none (("kategori \"" ++ kat ++ "\"").toList) =
      some kat.toList := by
    rw [hshape]
    exact scanQuoted_head rfl htry
  have hargsne : ("kategori \"" ++ kat ++ "\"") ≠ "" := by
    intro h
    have := congrArg String.toList h
    rw [hshape] at this
    simp at this
  unfold parse_produk_args
  rw [if_neg hargsne]
  dsimp only
  rw [hscan]
  dsimp only
  rw [hs]
  rw [if_neg (by simpa [List.isEmpty_iff] using hnil)]
  exact string_mk_toList kat

/-- An unquoted category value, strip-fixed, quote-free, newline-free and
with no page-token lookahead inside, extends to the end of the string and
is extracted exactly. -/
theorem parse_unquoted_value (v : String) (hne : v ≠ "")
    (hdq : dq ∉ v.toList) (hnl : '\n' ∉ v.toList)
    (hs : stripL v.toList = v.toList)
    (hlk : ∀ t ∈ v.toList.tails, t ≠ [] → lookaheadOk t = false) :
    (parse_produk_args ("kategori " ++ v)).kat = v := by
  have hshape : ("kategori " ++ v).toList =
      "kategori".toList ++ (' ' :: v.toList) := by
    show ("kategori ".data ++ v.data) = _
    rfl
  have hnil : v.toList ≠ [] := fun h => hne (toList_eq_nil h)
  obtain ⟨c, cs, hv⟩ : ∃ c cs, v.toList = c :: cs := by
    cases hvl : v.toList with
    | nil => exact absurd hvl hnil
    | cons c cs => exact ⟨c, cs, rfl⟩
  have hcs : isSpaceChar c = false := stripL_self_head (hv ▸ hs)
  have htry : tryUnquotedAt ("kategori".toList ++ (' ' :: c :: cs)) =
      some (c :: cs, []) := by
    refine tryUnquotedAt_at c cs hcs (hv ▸ hnl) ?_
    intro t ht htne
    refine hlk t ?_ htne
    rw [hv, List.mem_tails]
    exact ht.trans (List.suffix_cons c cs)
  have hscan : scanUnquoted none (("kategori " ++ v).toList) = some (c :: cs) := by
    rw [hshape, hv]
    exact scanUnquoted_head rfl htry
  have hnq : dq ∉ ("kategori " ++ v).toList := by
    rw [hshape]
    intro hmem
    rcases List.mem_append.mp hmem with hmem | hmem
    · revert hmem; decide
    · rcases List.mem_cons.mp hmem with hmem | hmem
      · revert hmem; decide
      · exact hdq hmem
  have hargsne : ("kategori " ++ v) ≠ "" := by
    intro h
    have := congrArg String.toList h
    rw [hshape] at this
    simp at this
  unfold parse_produk_args
  rw [if_neg hargsne]
  dsimp only
  rw [scanQuoted_none _ _ hnq]
  dsimp only
  rw [hscan]
  dsimp only
  have hemp : ([] : List Char).isEmpty = true := rfl
  rw [if_pos hemp, ← hv, hs]
  exact string_mk_toList v

/-- C3 counterexample: a double-quoted kategori value is not captured
fully verbatim — the extractor applies `.strip()` to the captured group,
so `kategori " x "` yields category `x`, not ` x `. -/
theorem parse_produk_quoted_strip_counterexample :
    parse_produk_args "kategori \" x \"" = ⟨"", "x", 1⟩ ∧ ("x" : String) ≠ " x " := by
  constructor
  · decide
  · decide

/-- C3 (amended): the spec's four round-trip examples hold; `kategori`
and `page` may appear in either order; a double-quoted kategori value
(quote-free, not starting or ending in whitespace) is captured verbatim —
surrounding whitespace inside the quotes would be stripped; an unquoted
kategori value (quote-, newline- and page-token-free, strip-fixed)
extends to the end of the string; and the free-text query is always the
input with the three recognised patterns removed, then stripped. -/
theorem parse_produk_args_spec :
    parse_produk_args "vita kategori Peternakan page 2" = ⟨"vita", "Peternakan", 2⟩ ∧
    parse_produk_args "kategori \"Alat Kesehatan\" page 3" = ⟨"", "Alat Kesehatan", 3⟩ ∧
    parse_produk_args "" = ⟨"", "", 1⟩ ∧
    parse_produk_args "page 0" = ⟨"", "", 1⟩ ∧
    parse_produk_args "vita page 2 kategori Peternakan" = ⟨"vita", "Peternakan", 2⟩ ∧
    (∀ kat : String, kat ≠ "" → dq ∉ kat.toList → stripL kat.toList = kat.toList →
      (parse_produk_args ("kategori \"" ++ kat ++ "\"")).kat = kat) ∧
    (∀ v : String, v ≠ "" → dq ∉ v.toList → '\n' ∉ v.toList →
      stripL v.toList = v.toList →
      (∀ t ∈ v.toList.tails, t ≠ [] → lookaheadOk t = false) →
      (parse_produk_args ("kategori " ++ v)).kat = v) ∧
    (∀ args : String, (parse_produk_args args).q =
      String.mk (stripL (subPage none (subUnquoted none
        (subQuoted none args.toList))))) := by
  refine ⟨by decide, by decide, by decide, by decide, by decide,
    parse_quoted_value, parse_unquoted_value, ?_⟩
  intro args
  unfold parse_produk_args
  split
  · rename_i hargs
    subst hargs
    rfl
  · rfl

theorem parse_produk_args_spec_witness :
    (parse_produk_args ("kategori \"" ++ "Alat Kesehatan" ++ "\"")).kat =
      "Alat Kesehatan" ∧
    (parse_produk_args ("kategori " ++ "Peternakan")).kat = "Peternakan" := by
  constructor
  · exact parse_produk_args_spec.2.2.2.2.2.1 "Alat Kesehatan" (by decide) (by decide)
      (by decide)
  · exact parse_produk_args_spec.2.2.2.2.2.2.1 "Peternakan" (by decide) (by decide)
      (by decide) (by decide) (by decide)
